import Mathlib

/-!
# Verification of the eval-replay engine

A shallow embedding of the core of the trace eval-replay engine:

* the template engine (`fillVariables` and the text-marker dialect parser
  `parseTextMarkerFormat`),
* observation matching (`findMatchingObservation`),
* the Zod-to-Gemini schema translator (`zodToGeminiSchema`),
* the per-trace evaluator (`runSingleEval`) and the batched run
  orchestrator (`runEvaluations`, `mkEvalRunResult`).

Strings are modelled as `List Char`.  JavaScript `String.prototype.replace`
with a global regex built from a variable key is modelled as literal
substring replacement (exact for keys that contain no regex
metacharacters; in the source, keys are spliced into the regex unescaped),
including JavaScript's `$`-sequence processing of the replacement string
(`$$`, `$&`, the dollar-backquote "portion before match" form and the
dollar-quote "portion after match" form; `$n` stays literal because the
patterns contain no capture groups).

Several scanning functions take an explicit fuel argument (always
instantiated with the length of the scanned list, which the scan can never
exhaust, since every step consumes at least one character); this keeps all
definitions structurally recursive and hence executable by `decide`.
-/

set_option maxRecDepth 4000
set_option linter.unusedVariables false

/-- Abbreviation: strings of the source are modelled as `List Char`. -/
def lst (s : String) : List Char := s.toList

/-- The character class `[\w-]` of the cleanup regexes
`/\{\{[\w-]+\}\}/g` and `/\{[\w-]+\}/g` (JS `\w` is ASCII
alphanumeric plus underscore; the class adds the hyphen). -/
def isWordChar (c : Char) : Bool :=
  (c.isAlpha || c.isDigit) || c = '_' || c = '-'

/-- JavaScript `GetSubstitution`: process `$`-sequences in a replacement
string.  `matched` is the matched substring, `before` the portion of the
original string before the match, `after` the portion after it.  `$$`
yields `$`, `$&` the match, `$` followed by the backquote character
(code 96) yields `before`, `$'` yields `after`; any other `$` is literal.
`$n` group references stay literal because the regexes used by
`fillVariables` have no capture groups. -/
def expandRepl (matched before after : List Char) : List Char → List Char
  | [] => []
  | c :: rest =>
    if c = '$' then
      match rest with
      | [] => ['$']
      | c2 :: rest2 =>
        if c2 = '$' then '$' :: expandRepl matched before after rest2
        else if c2 = '&' then matched ++ expandRepl matched before after rest2
        else if c2 = Char.ofNat 96 then before ++ expandRepl matched before after rest2
        else if c2 = '\'' then after ++ expandRepl matched before after rest2
        else '$' :: expandRepl matched before after (c2 :: rest2)
    else c :: expandRepl matched before after rest

/-- One global-replace pass of `result.replace(new RegExp(pat, 'g'), repl)`
for a literal pattern `pat`: scan left to right, replace each
non-overlapping occurrence of `pat`, resuming after the occurrence.
`before` accumulates the portion of the original string already scanned
(needed by the `$`-sequences of `expandRepl`).  The fuel is instantiated
with the length of the scanned string, which suffices because every step
consumes at least one character (the patterns are nonempty). -/
def replaceAllFuel (pat repl : List Char) : Nat → List Char → List Char → List Char
  | 0, _, s => s
  | _ + 1, _, [] => []
  | fuel + 1, before, c :: cs =>
    if !pat.isEmpty && pat.isPrefixOf (c :: cs) then
      expandRepl pat before ((c :: cs).drop pat.length) repl
        ++ replaceAllFuel pat repl fuel (before ++ pat) ((c :: cs).drop pat.length)
    else
      c :: replaceAllFuel pat repl fuel (before ++ [c]) cs

/-- `s.replace(new RegExp(pat, 'g'), repl)` for a literal pattern. -/
def replaceAll (s pat repl : List Char) : List Char :=
  replaceAllFuel pat repl s.length [] s

/-- One spelling of a key: replace `{{key}}`, then `{key}`. -/
def fillOneSpelling (result key value : List Char) : List Char :=
  replaceAll (replaceAll result ('{' :: '{' :: (key ++ ['}', '}'])) value)
    ('{' :: (key ++ ['}'])) value

/-- The body of the `for (const [key, value] of Object.entries(variables))`
loop of `fillVariables`: replace `{{key}}` and `{key}`, then the same two
forms for the hyphen-swapped spelling (when it differs) and the
underscore-swapped spelling (when it differs).  The value is assumed
already converted by `String(value)` (with `null`/`undefined` mapped to
the empty string). -/
def fillKey (result key value : List Char) : List Char :=
  let r2 := fillOneSpelling result key value
  let hyphenKey := key.map (fun c => if c = '_' then '-' else c)
  let r3 := if hyphenKey = key then r2 else fillOneSpelling r2 hyphenKey value
  let underscoreKey := key.map (fun c => if c = '-' then '_' else c)
  if underscoreKey = key then r3 else fillOneSpelling r3 underscoreKey value

/-- The variable-substitution loop of `fillVariables`: keys are processed
in the order of `Object.entries(variables)` (insertion order for
non-numeric keys), each pass rewriting the whole current result. -/
def substituteVars (template : List Char) (vars : List (List Char × List Char)) : List Char :=
  vars.foldl (fun acc kv => fillKey acc kv.1 kv.2) template

/-- Match of the regex `\{[\w-]+\}` at the head of the list: an opening
brace, a nonempty run of word characters, a closing brace.  Returns the
remainder after the match.  (Greedy matching with backtracking coincides
with taking the maximal word run, since `}` is not a word character.) -/
def matchSingle : List Char → Option (List Char)
  | [] => none
  | c :: rest =>
    if c = '{' then
      if (rest.takeWhile isWordChar).isEmpty then none
      else if (rest.dropWhile isWordChar).head? = some '}' then
        some (rest.dropWhile isWordChar).tail
      else none
    else none

/-- Match of the regex `\{\{[\w-]+\}\}` at the head of the list. -/
def matchDouble : List Char → Option (List Char)
  | c :: c2 :: rest =>
    if c = '{' ∧ c2 = '{' then
      if (rest.takeWhile isWordChar).isEmpty then none
      else if (rest.dropWhile isWordChar).head? = some '}'
          ∧ (rest.dropWhile isWordChar).tail.head? = some '}' then
        some (rest.dropWhile isWordChar).tail.tail
      else none
    else none
  | _ => none

/-- `result.replace(/\{[\w-]+\}/g, '')`: left-to-right scan deleting each
non-overlapping occurrence of `\{[\w-]+\}`, resuming after the occurrence
(the deleted region is not re-scanned).  Fuel as in `replaceAllFuel`. -/
def removeSinglesFuel : Nat → List Char → List Char
  | 0, s => s
  | _ + 1, [] => []
  | fuel + 1, c :: cs =>
    match matchSingle (c :: cs) with
    | some r => removeSinglesFuel fuel r
    | none => c :: removeSinglesFuel fuel cs

/-- `result.replace(/\{[\w-]+\}/g, '')`. -/
def removeSingles (s : List Char) : List Char := removeSinglesFuel s.length s

/-- `result.replace(/\{\{[\w-]+\}\}/g, '')`. -/
def removeDoublesFuel : Nat → List Char → List Char
  | 0, s => s
  | _ + 1, [] => []
  | fuel + 1, c :: cs =>
    match matchDouble (c :: cs) with
    | some r => removeDoublesFuel fuel r
    | none => c :: removeDoublesFuel fuel cs

/-- `result.replace(/\{\{[\w-]+\}\}/g, '')`. -/
def removeDoubles (s : List Char) : List Char := removeDoublesFuel s.length s

/-- `fillVariables(template, variables)`: substitute every variable in
insertion order, then delete any remaining `{{word}}` placeholders, then
any remaining `{word}` placeholders.  (`parseAndFillPrompt` applies this
same function either to the whole plain-text blob or to each parsed
message's content string, so per-string properties of `fillVariables`
cover every text it produces; the JSON-array dialect detection itself is
not modelled.) -/
def fillVariables (template : List Char) (vars : List (List Char × List Char)) : List Char :=
  removeSingles (removeDoubles (substituteVars template vars))

/-- Does `[\w-]+\}` match at the head of the list (a nonempty word run
followed by a closing brace)? -/
def wordThenClose (s : List Char) : Bool :=
  !(s.takeWhile isWordChar).isEmpty && (s.dropWhile isWordChar).head? = some '}'

/-- Does the placeholder pattern `\{\{?[\w-]+\}\}?` match at the head of
the list?  (The trailing optional brace never affects matchability, and
after a double opening brace the word run can only start past it, since
the brace is not a word character.) -/
def placeholderAt : List Char → Bool
  | [] => false
  | c :: rest =>
    if c = '{' then
      if rest.head? = some '{' then wordThenClose rest.tail else wordThenClose rest
    else false

/-- Does the string contain a substring matching `\{\{?[\w-]+\}\}?`? -/
def containsPlaceholder : List Char → Bool
  | [] => false
  | c :: rest => placeholderAt (c :: rest) || containsPlaceholder rest

/-- Sufficient condition for the single-brace cleanup pass to leave no
placeholder-shaped substring: every opening brace either begins a
`\{[\w-]+\}` match or is followed by no closing brace at all. -/
def bracesOk : List Char → Bool
  | [] => true
  | c :: rest =>
    (if c = '{' then (matchSingle (c :: rest)).isSome || !rest.any (· == '}') else true)
    && bracesOk rest

/-- No closing brace occurs anywhere after an opening brace. -/
def noCloseAfterOpen : List Char → Bool
  | [] => true
  | c :: rest =>
    (if c = '{' then !rest.any (· == '}') else true) && noCloseAfterOpen rest

/-- Does `pat` occur as a contiguous substring (models JS `includes`)? -/
def occursIn (pat : List Char) : List Char → Bool
  | [] => pat.isEmpty
  | c :: rest => pat.isPrefixOf (c :: rest) || occursIn pat rest

/-! ## Text-marker dialect parser (`parseTextMarkerFormat`) -/

/-- Chat message role. -/
inductive Role where
  | system
  | user
  | assistant
  deriving DecidableEq, Repr

/-- A `{role, content}` chat message. -/
structure ChatMessage where
  role : Role
  content : List Char
  deriving DecidableEq, Repr

/-- The case-sensitive marker presence check of `parseTextMarkerFormat`:
`text.includes('[SYSTEM]') || text.includes('[USER]') ||
text.includes('[ASSISTANT]')`. -/
def hasMarkers (text : List Char) : Bool :=
  occursIn (lst "[SYSTEM]") text || occursIn (lst "[USER]") text
    || occursIn (lst "[ASSISTANT]") text

/-- ASCII upper-casing of a string, modelling both JS `toUpperCase` and
the case-insensitive (`/i`) matching of the split regex on its
ASCII-letter alternatives. -/
def toUpperL (s : List Char) : List Char := s.map Char.toUpper

/-- Case-insensitive match of one of `[SYSTEM]`, `[USER]`, `[ASSISTANT]`
at the head of the list (the alternation of the split regex
`/(\[SYSTEM\]|\[USER\]|\[ASSISTANT\])/i`); returns the marker length. -/
def matchMarkerAt (s : List Char) : Option Nat :=
  if toUpperL (s.take 8) = lst "[SYSTEM]" then some 8
  else if toUpperL (s.take 6) = lst "[USER]" then some 6
  else if toUpperL (s.take 11) = lst "[ASSISTANT]" then some 11
  else none

/-- `text.split(/(\[SYSTEM\]|\[USER\]|\[ASSISTANT\])/i)`: split on the
markers case-insensitively, keeping each matched marker (in its original
casing) as its own part, with the segments between markers (possibly
empty) as the other parts.  `acc` holds the current segment reversed.
Fuel is instantiated with the text length (each step consumes at least
one character). -/
def splitMarkersFuel : Nat → List Char → List Char → List (List Char)
  | 0, acc, s => [acc.reverse ++ s]
  | _ + 1, acc, [] => [acc.reverse]
  | fuel + 1, acc, c :: cs =>
    match matchMarkerAt (c :: cs) with
    | some k =>
      acc.reverse :: (c :: cs).take k :: splitMarkersFuel fuel [] ((c :: cs).drop k)
    | none => splitMarkersFuel fuel (c :: acc) cs

/-- `text.split(/(\[SYSTEM\]|\[USER\]|\[ASSISTANT\])/i)`. -/
def splitMarkers (text : List Char) : List (List Char) :=
  splitMarkersFuel text.length [] text

/-- ASCII whitespace trimmed by JS `String.prototype.trim` (the source
templates only contain these whitespace characters). -/
def isJsSpace (c : Char) : Bool :=
  c = ' ' || c = '\t' || c = '\n' || c = '\r' || c = Char.ofNat 11 || c = Char.ofNat 12

/-- JS `part.trim()`. -/
def trimL (s : List Char) : List Char :=
  ((s.dropWhile isJsSpace).reverse.dropWhile isJsSpace).reverse

/-- The accumulation loop of `parseTextMarkerFormat`: walk the split
parts; an empty (after trimming) part is skipped; a part equal (after
upper-casing) to a marker updates the current role; any other part is
pushed as a message for the current role, or dropped when no marker has
been seen yet. -/
def buildMessages : Option Role → List (List Char) → List ChatMessage
  | _, [] => []
  | currentRole, part :: rest =>
    let trimmed := trimL part
    if trimmed.isEmpty then buildMessages currentRole rest
    else
      let upperPart := toUpperL trimmed
      if upperPart = lst "[SYSTEM]" then buildMessages (some Role.system) rest
      else if upperPart = lst "[USER]" then buildMessages (some Role.user) rest
      else if upperPart = lst "[ASSISTANT]" then buildMessages (some Role.assistant) rest
      else match currentRole with
        | some r => { role := r, content := trimmed } :: buildMessages currentRole rest
        | none => buildMessages currentRole rest

/-- `parseTextMarkerFormat(text)`: `null` when no (case-sensitive) marker
occurs; otherwise split on markers case-insensitively, assign each
non-empty segment to the most recently seen marker's role, and return the
messages, or `null` when none were produced. -/
def parseTextMarkerFormat (text : List Char) : Option (List ChatMessage) :=
  if hasMarkers text then
    let messages := buildMessages none (splitMarkers text)
    if messages.isEmpty then none else some messages
  else none

/-! ## Observation matching (`findMatchingObservation`) -/

/-- The observation fields read by `findMatchingObservation`: the
observation name, the `function-name` metadata field and the `promptName`
metadata field (each possibly absent). -/
structure Observation where
  name : Option (List Char)
  functionName : Option (List Char)
  promptName : Option (List Char)
  deriving DecidableEq, Repr

/-- `s.toLowerCase()` followed by the global replacement of every hyphen
with the empty string: lower-case, then strip hyphens. -/
def normalizeNameL (s : List Char) : List Char :=
  (s.map Char.toLower).filter (fun c => c ≠ '-')

/-- `originalPromptName.split('/').pop() || originalPromptName`: the last
`/`-separated segment, falling back to the whole name when that segment
is empty (JS falsiness of the empty string). -/
def lastSegment (pn : List Char) : List Char :=
  match (pn.splitOn '/').getLast? with
  | some l => if l.isEmpty then pn else l
  | none => pn

/-- `findMatchingObservation()`: with no (or an empty, hence falsy)
prompt name, or no observations, return the first observation if any.
Otherwise try, in order: exact name equality; normalized (lower-cased,
hyphen-stripped) name containment of the normalized prompt base name;
`function-name` metadata containment in either direction; `promptName`
metadata equality or containment of the prompt base name.  Fall back to
the first observation.  The falsy guards on `obs.name` and on the
`function-name` field skip absent and empty strings alike. -/
def findMatchingObservation :
    Option (List Char) → List Observation → Option Observation
  | none, obss => obss.head?
  | some pn, obss =>
    if pn.isEmpty || obss.isEmpty then obss.head?
    else
      let promptBaseName := lastSegment pn
      let promptNormalized := normalizeNameL promptBaseName
      match obss.find? (fun o => o.name = some pn) with
      | some m => some m
      | none =>
        match obss.find? (fun o =>
            match o.name with
            | some nm =>
              if nm.isEmpty then false
              else occursIn promptNormalized (normalizeNameL nm)
            | none => false) with
        | some m => some m
        | none =>
          match obss.find? (fun o =>
              match o.functionName with
              | some fn =>
                if fn.isEmpty then false
                else
                  occursIn promptNormalized (normalizeNameL fn)
                    || occursIn (normalizeNameL fn) promptNormalized
              | none => false) with
          | some m => some m
          | none =>
            match obss.find? (fun o =>
                o.promptName = some pn
                  || (match o.promptName with
                      | some pm => occursIn promptBaseName pm
                      | none => false)) with
            | some m => some m
            | none => obss.head?

/-! ## Zod-to-Gemini schema translation (`zodToGeminiSchema`) -/

/-- A JavaScript literal value as carried by a `ZodLiteral` node (the
source distinguishes string, number and boolean literals by `typeof`). -/
inductive JsLit where
  | str : List Char → JsLit
  | num : Int → JsLit
  | bool : Bool → JsLit
  deriving DecidableEq, Repr

/-- The Gemini `Type` enum values used by the translator. -/
inductive GType where
  | STRING
  | NUMBER
  | BOOLEAN
  | ARRAY
  | OBJECT
  deriving DecidableEq, Repr

/-- Gemini's `Schema` shape, restricted to the fields the translator
writes: `type`, `enum`, `items`, `properties`, `required`, `nullable`,
`description`.  `Option` distinguishes an absent field from a present
one. -/
inductive GeminiSchema where
  | mk
    (gtype : GType)
    (enumVals : Option (List (List Char)))
    (items : Option GeminiSchema)
    (properties : Option (List (List Char × GeminiSchema)))
    (required : Option (List (List Char)))
    (nullable : Option Bool)
    (description : Option (List Char))
  deriving Repr

/-- The `type` field. -/
def GeminiSchema.gtype : GeminiSchema → GType
  | .mk t _ _ _ _ _ _ => t

/-- The `enum` field. -/
def GeminiSchema.enumVals : GeminiSchema → Option (List (List Char))
  | .mk _ e _ _ _ _ _ => e

/-- The `items` field. -/
def GeminiSchema.items : GeminiSchema → Option GeminiSchema
  | .mk _ _ i _ _ _ _ => i

/-- The `properties` field. -/
def GeminiSchema.properties : GeminiSchema → Option (List (List Char × GeminiSchema))
  | .mk _ _ _ p _ _ _ => p

/-- The `required` field. -/
def GeminiSchema.required : GeminiSchema → Option (List (List Char))
  | .mk _ _ _ _ r _ _ => r

/-- The `nullable` field. -/
def GeminiSchema.nullable : GeminiSchema → Option Bool
  | .mk _ _ _ _ _ n _ => n

/-- The `description` field. -/
def GeminiSchema.description : GeminiSchema → Option (List Char)
  | .mk _ _ _ _ _ _ d => d

/-- `{ type: t }` with every other field absent. -/
def gbase (t : GType) : GeminiSchema := .mk t none none none none none none

/-- The object spread `{ ...inner, nullable: true }` of the `ZodNullable`
case. -/
def GeminiSchema.setNullable : GeminiSchema → GeminiSchema
  | .mk t e i p r _ d => .mk t e i p r (some true) d

/-- `properties[key].description = ...` of `handleZodObject`. -/
def GeminiSchema.setDescription : GeminiSchema → List Char → GeminiSchema
  | .mk t e i p r n _, d => .mk t e i p r n (some d)

/-- The closed set of Zod node kinds dispatched on by `convertZodType`
(via `_def.typeName`).  A `zstring` records whether its checks include a
regex check; an object field carries its key, its type and the
`_def.description` of its type (the only description the translator
reads); `zunknown` stands for any unrecognized `typeName` (the `default`
branch). -/
inductive ZodType where
  | zstring (hasRegexCheck : Bool)
  | znumber
  | zboolean
  | zarray (item : ZodType)
  | zobject (fields : List (List Char × ZodType × Option (List Char)))
  | zenum (values : List (List Char))
  | zoptional (inner : ZodType)
  | znullable (inner : ZodType)
  | zdefault (inner : ZodType)
  | zeffects (inner : ZodType)
  | zliteral (value : JsLit)
  | zunion (options : List ZodType)
  | zunknown
  deriving Repr

/-- Zod's `isOptional()` (`safeParse(undefined).success`): true for
`ZodOptional` and `ZodDefault`, delegated through `ZodEffects` and
`ZodNullable` wrappers, false otherwise. -/
def ZodType.isOptional : ZodType → Bool
  | .zoptional _ => true
  | .zdefault _ => true
  | .zeffects t => t.isOptional
  | .znullable t => t.isOptional
  | _ => false

/-- `handleZodString`: a regex check cannot be translated and degrades to
an unconstrained string; without one the result is likewise a plain
string. -/
def handleZodString (hasRegexCheck : Bool) : GeminiSchema :=
  if hasRegexCheck then gbase GType.STRING else gbase GType.STRING

/-- `if (_def.description) properties[key].description = _def.description`
(a truthy check: the empty string is not attached). -/
def applyDescription (g : GeminiSchema) : Option (List Char) → GeminiSchema
  | none => g
  | some d => if d.isEmpty then g else g.setDescription d

mutual

/-- `convertZodType`: the recursive dispatch over `_def.typeName`. -/
def convertZodType : ZodType → GeminiSchema
  | .zstring hasRegexCheck => handleZodString hasRegexCheck
  | .znumber => gbase GType.NUMBER
  | .zboolean => gbase GType.BOOLEAN
  | .zarray item => .mk GType.ARRAY none (some (convertZodType item)) none none none none
  | .zobject fields =>
    let properties := convertFields fields
    let required := (fields.filter (fun f => !f.2.1.isOptional)).map (fun f => f.1)
    .mk GType.OBJECT none none (some properties)
      (if required.isEmpty then none else some required) none none
  | .zenum values => .mk GType.STRING (some values) none none none none none
  | .zoptional inner => convertZodType inner
  | .znullable inner => (convertZodType inner).setNullable
  | .zdefault inner => convertZodType inner
  | .zeffects inner => convertZodType inner
  | .zliteral v =>
    match v with
    | .str s => .mk GType.STRING (some [s]) none none none none none
    | .num _ => gbase GType.NUMBER
    | .bool _ => gbase GType.BOOLEAN
  | .zunion options =>
    let allStrings := options.all (fun t =>
      match t with
      | .zliteral (.str _) => true
      | _ => false)
    if allStrings then
      -- the `_ => []` default mirrors the source's unchecked cast: under
      -- `allStrings` every option is a string literal and it is unreachable
      .mk GType.STRING
        (some (options.map (fun t =>
          match t with
          | .zliteral (.str s) => s
          | _ => [])))
        none none none none none
    else
      match options with
      | t :: _ => convertZodType t
      | [] => gbase GType.STRING
  | .zunknown => gbase GType.STRING

/-- The per-field loop of `handleZodObject`: translate each field type
and attach its description when present (and truthy). -/
def convertFields :
    List (List Char × ZodType × Option (List Char)) → List (List Char × GeminiSchema)
  | [] => []
  | f :: rest => (f.1, applyDescription (convertZodType f.2.1) f.2.2) :: convertFields rest

end

/-- `zodToGeminiSchema(zodSchema)`. -/
def zodToGeminiSchema (zodSchema : ZodType) : GeminiSchema := convertZodType zodSchema

/-! ## Per-trace evaluation (`runSingleEval`) and the batched run
orchestrator (`runTracesEvalFunction`)

`runSingleEval` interacts with the trace store and a model provider; the
embedding abstracts those effects into a per-trace environment
(`SingleEvalEnv`): the result of `fetchTraceWithVariables` (which returns
`null` both on store errors and when no `promptVariables` are found), the
outcome of the remainder of the `try` block (the provider call either
returns a response or throws with a message), and the elapsed time
`Date.now() - startTime` observed at the point a latency is recorded.
Fields of `TraceEvalResult` that no claim mentions (`parsed`,
`tokenUsage`, `promptFormat`, `schemaKey`, `toolGroupKey`, `toolCalls`)
are omitted from the embedding. -/

/-- One trace's evaluation outcome (the fields the claims mention). -/
structure TraceEvalResult where
  traceId : List Char
  success : Bool
  input : Option (List (List Char × List Char))
  output : Option (List Char)
  originalProductionOutput : Option (List Char)
  error : Option (List Char)
  latencyMs : Option Nat
  variableSource : Option (List Char)
  deriving DecidableEq, Repr

/-- The non-null result of `fetchTraceWithVariables`: the variables, the
original output extracted from the matching observation, and the
provenance tag. -/
structure ResolvedTrace where
  promptVariables : List (List Char × List Char)
  originalOutput : Option (List Char)
  source : List Char
  deriving DecidableEq, Repr

/-- The provider response fields used by the success path. -/
structure ProviderResponse where
  text : Option (List Char)
  deriving DecidableEq, Repr

/-- Abstract environment for one `runSingleEval` call: see the section
comment. -/
structure SingleEvalEnv where
  resolution : Option ResolvedTrace
  providerOutcome : Except (List Char) ProviderResponse
  elapsedMs : Nat
  deriving Repr

/-- The error message of the resolution-not-found branch. -/
def noPromptVariablesMsg : List Char :=
  lst "No promptVariables found in trace metadata. Ensure generations log promptVariables in their metadata."

/-- JS `x ? x : y` on an optional string (the empty string is falsy). -/
def truthyOrElse (x y : Option (List Char)) : Option (List Char) :=
  match x with
  | some s => if s.isEmpty then y else some s
  | none => y

/-- JS `x || undefined` on an optional string. -/
def truthyOrNone (x : Option (List Char)) : Option (List Char) := truthyOrElse x none

/-- `runSingleEval(draftPrompt, traceId, ...)`: when
`fetchTraceWithVariables` returns `null`, a failed result carrying only
the not-found error message (no latency, no input); when the rest of the
`try` block throws, the `catch` branch's failed result carrying the
thrown message and the latency; otherwise the success result.
`providedOriginalOutput` models `options.originalOutput` (from the
trace-observation pairs), which takes priority over the fetched original
output when truthy. -/
def runSingleEval (draftPrompt : List Char) (traceId : List Char)
    (providedOriginalOutput : Option (List Char)) (env : SingleEvalEnv) :
    TraceEvalResult :=
  match env.resolution with
  | none =>
    { traceId := traceId
      success := false
      input := none
      output := none
      originalProductionOutput := none
      error := some noPromptVariablesMsg
      latencyMs := none
      variableSource := none }
  | some traceData =>
    let originalProductionOutput :=
      truthyOrElse providedOriginalOutput traceData.originalOutput
    match env.providerOutcome with
    | .error e =>
      { traceId := traceId
        success := false
        input := none
        output := none
        originalProductionOutput := none
        error := some e
        latencyMs := some env.elapsedMs
        variableSource := none }
    | .ok response =>
      { traceId := traceId
        success := true
        input := some traceData.promptVariables
        output := response.text
        originalProductionOutput := truthyOrNone originalProductionOutput
        error := none
        latencyMs := some env.elapsedMs
        variableSource := some traceData.source }

/-- The batch loop of the `run-evaluations` step:
`for (let i = 0; i < traceIds.length; i += concurrency)` evaluate the
slice `traceIds.slice(i, i + concurrency)` and append its results.  Fuel
is instantiated with the number of trace ids; for `concurrency ≥ 1` each
iteration consumes at least one id, so the fuel is never exhausted (for
`concurrency = 0` the source loop would not terminate). -/
def runEvaluationsFuel (evalOne : α → β) (concurrency : Nat) : Nat → List α → List β
  | 0, _ => []
  | _ + 1, [] => []
  | fuel + 1, x :: xs =>
    ((x :: xs).take concurrency).map evalOne
      ++ runEvaluationsFuel evalOne concurrency fuel ((x :: xs).drop concurrency)

/-- All per-trace results of the `run-evaluations` step, in order. -/
def runEvaluations (evalOne : α → β) (concurrency : Nat) (traceIds : List α) : List β :=
  runEvaluationsFuel evalOne concurrency traceIds.length traceIds

/-- The successive batches (`traceIds.slice(i, i + concurrency)`) of the
batch loop. -/
def evalBatchesFuel (concurrency : Nat) : Nat → List α → List (List α)
  | 0, _ => []
  | _ + 1, [] => []
  | fuel + 1, x :: xs =>
    (x :: xs).take concurrency
      :: evalBatchesFuel concurrency fuel ((x :: xs).drop concurrency)

/-- The successive batches of the batch loop. -/
def evalBatches (concurrency : Nat) (traceIds : List α) : List (List α) :=
  evalBatchesFuel concurrency traceIds.length traceIds

/-- The default of the destructuring `concurrency = 10`. -/
def defaultConcurrency : Nat := 10

/-- The aggregate result fields the claims mention. -/
structure EvalRunResult where
  totalTraces : Nat
  successCount : Nat
  failureCount : Nat
  results : List TraceEvalResult
  deriving DecidableEq, Repr

/-- The summary computation of `runTracesEvalFunction`:
`totalTraces: traceIds.length`,
`successCount = results.filter(r => r.success).length`,
`failureCount = results.filter(r => !r.success).length`. -/
def mkEvalRunResult (traceIds : List (List Char)) (results : List TraceEvalResult) :
    EvalRunResult :=
  { totalTraces := traceIds.length
    successCount := (results.filter (fun r => r.success)).length
    failureCount := (results.filter (fun r => !r.success)).length
    results := results }

/-! ## Lemmas about the batch loop -/

theorem length_filter_partition (p : α → Bool) (l : List α) :
    (l.filter p).length + (l.filter (fun x => !(p x))).length = l.length := by
  induction l with
  | nil => rfl
  | cons x xs ih =>
    by_cases h : p x = true <;> simp [List.filter, h] <;> omega

theorem runEvaluationsFuel_eq_flatten (evalOne : α → β) (c : Nat) (fuel : Nat)
    (ids : List α) :
    runEvaluationsFuel evalOne c fuel ids
      = ((evalBatchesFuel c fuel ids).map (fun b => b.map evalOne)).flatten := by
  induction fuel generalizing ids with
  | zero => simp [runEvaluationsFuel, evalBatchesFuel]
  | succ fuel ih =>
    cases ids with
    | nil => simp [runEvaluationsFuel, evalBatchesFuel]
    | cons x xs => simp [runEvaluationsFuel, evalBatchesFuel, ih]

theorem evalBatchesFuel_flatten (c : Nat) (hc : 1 ≤ c) (fuel : Nat) (ids : List α)
    (hf : ids.length ≤ fuel) :
    (evalBatchesFuel c fuel ids).flatten = ids := by
  induction fuel generalizing ids with
  | zero =>
    have : ids = [] := by
      cases ids with
      | nil => rfl
      | cons x xs => simp at hf
    simp [this, evalBatchesFuel]
  | succ fuel ih =>
    cases ids with
    | nil => simp [evalBatchesFuel]
    | cons x xs =>
      have hlen : ((x :: xs).drop c).length ≤ fuel := by
        simp only [List.length_drop, List.length_cons] at hf ⊢
        omega
      simp only [evalBatchesFuel, List.flatten_cons, ih _ hlen, List.take_append_drop]

theorem runEvaluations_eq_map (evalOne : α → β) (c : Nat) (hc : 1 ≤ c) (ids : List α) :
    runEvaluations evalOne c ids = ids.map evalOne := by
  rw [runEvaluations, runEvaluationsFuel_eq_flatten, ← List.map_flatten,
    evalBatchesFuel_flatten c hc ids.length ids (Nat.le_refl _)]

theorem evalBatchesFuel_length (c : Nat) (hc : 1 ≤ c) (fuel : Nat) (ids : List α)
    (hf : ids.length ≤ fuel) :
    (evalBatchesFuel c fuel ids).length = (ids.length + c - 1) / c := by
  induction fuel generalizing ids with
  | zero =>
    have : ids = [] := by
      cases ids with
      | nil => rfl
      | cons x xs => simp at hf
    subst this
    simp only [evalBatchesFuel, List.length_nil]
    exact (Nat.div_eq_of_lt (by omega)).symm
  | succ fuel ih =>
    cases ids with
    | nil =>
      simp only [evalBatchesFuel, List.length_nil]
      exact (Nat.div_eq_of_lt (by omega)).symm
    | cons x xs =>
      have hlen : ((x :: xs).drop c).length ≤ fuel := by
        simp only [List.length_drop, List.length_cons] at hf ⊢
        omega
      rw [evalBatchesFuel, List.length_cons, ih _ hlen]
      simp only [List.length_drop, List.length_cons]
      by_cases hcx : c ≤ xs.length + 1
      · have e1 : xs.length + 1 - c + c - 1 = xs.length := by omega
        have e2 : xs.length + 1 + c - 1 = xs.length + c := by omega
        rw [e1, e2, Nat.add_div_right _ (by omega : 0 < c)]
      · have e1 : xs.length + 1 - c = 0 := by omega
        have e2 : (0 + c - 1) / c = 0 := Nat.div_eq_of_lt (by omega)
        have e3 : xs.length + 1 + c - 1 = xs.length + c := by omega
        rw [e1, e2, e3, Nat.add_div_right _ (by omega : 0 < c),
          Nat.div_eq_of_lt (by omega : xs.length < c)]

theorem evalBatchesFuel_sizes (c : Nat) (hc : 1 ≤ c) (fuel : Nat) (ids : List α)
    (b : List α) (hb : b ∈ evalBatchesFuel c fuel ids) :
    b ≠ [] ∧ b.length ≤ c := by
  induction fuel generalizing ids with
  | zero => simp [evalBatchesFuel] at hb
  | succ fuel ih =>
    cases ids with
    | nil => simp [evalBatchesFuel] at hb
    | cons x xs =>
      simp only [evalBatchesFuel, List.mem_cons] at hb
      rcases hb with hb | hb
      · subst hb
        constructor
        · intro hnil
          have hl := congrArg List.length hnil
          simp only [List.length_take, List.length_cons, List.length_nil] at hl
          omega
        · simp only [List.length_take, List.length_cons]
          omega
      · exact ih _ hb

theorem runSingleEval_traceId (draftPrompt traceId : List Char)
    (providedOriginalOutput : Option (List Char)) (env : SingleEvalEnv) :
    (runSingleEval draftPrompt traceId providedOriginalOutput env).traceId = traceId := by
  rw [runSingleEval]
  cases env.resolution with
  | none => rfl
  | some td => cases env.providerOutcome <;> rfl

/-! ## Claim C4 -/

/-- C4: for every run (any per-trace outcomes, any concurrency limit at
least 1), the final `EvalRunResult` satisfies
`successCount + failureCount = totalTraces`, where `totalTraces` is the
length of the input trace id list: every trace id contributes exactly one
result and `success` partitions the results. -/
theorem eval_run_counts (evalOne : List Char → TraceEvalResult) (c : Nat) (hc : 1 ≤ c)
    (traceIds : List (List Char)) :
    (mkEvalRunResult traceIds (runEvaluations evalOne c traceIds)).successCount
      + (mkEvalRunResult traceIds (runEvaluations evalOne c traceIds)).failureCount
      = (mkEvalRunResult traceIds (runEvaluations evalOne c traceIds)).totalTraces := by
  simp only [mkEvalRunResult]
  rw [runEvaluations_eq_map _ _ hc, length_filter_partition, List.length_map]

/-- Witness for C4: a three-trace run with one failing trace (no
variables resolved for `t2`) has two successes, one failure, and the
counts sum to the trace count. -/
theorem eval_run_counts_witness :
    (mkEvalRunResult [lst "t1", lst "t2", lst "t3"]
        (runEvaluations (fun id => runSingleEval (lst "p") id none
          (if id = lst "t2"
           then { resolution := none, providerOutcome := .ok ⟨some (lst "o")⟩, elapsedMs := 3 }
           else { resolution := some ⟨[(lst "a", lst "1")], some (lst "orig"), lst "trace:metadata"⟩,
                  providerOutcome := .ok ⟨some (lst "o")⟩, elapsedMs := 3 })) 2
          [lst "t1", lst "t2", lst "t3"])).successCount = 2 ∧
    (mkEvalRunResult [lst "t1", lst "t2", lst "t3"]
        (runEvaluations (fun id => runSingleEval (lst "p") id none
          (if id = lst "t2"
           then { resolution := none, providerOutcome := .ok ⟨some (lst "o")⟩, elapsedMs := 3 }
           else { resolution := some ⟨[(lst "a", lst "1")], some (lst "orig"), lst "trace:metadata"⟩,
                  providerOutcome := .ok ⟨some (lst "o")⟩, elapsedMs := 3 })) 2
          [lst "t1", lst "t2", lst "t3"])).failureCount = 1 ∧
    (mkEvalRunResult [lst "t1", lst "t2", lst "t3"]
        (runEvaluations (fun id => runSingleEval (lst "p") id none
          (if id = lst "t2"
           then { resolution := none, providerOutcome := .ok ⟨some (lst "o")⟩, elapsedMs := 3 }
           else { resolution := some ⟨[(lst "a", lst "1")], some (lst "orig"), lst "trace:metadata"⟩,
                  providerOutcome := .ok ⟨some (lst "o")⟩, elapsedMs := 3 })) 2
          [lst "t1", lst "t2", lst "t3"])).successCount
      + (mkEvalRunResult [lst "t1", lst "t2", lst "t3"]
        (runEvaluations (fun id => runSingleEval (lst "p") id none
          (if id = lst "t2"
           then { resolution := none, providerOutcome := .ok ⟨some (lst "o")⟩, elapsedMs := 3 }
           else { resolution := some ⟨[(lst "a", lst "1")], some (lst "orig"), lst "trace:metadata"⟩,
                  providerOutcome := .ok ⟨some (lst "o")⟩, elapsedMs := 3 })) 2
          [lst "t1", lst "t2", lst "t3"])).failureCount
      = (mkEvalRunResult [lst "t1", lst "t2", lst "t3"]
        (runEvaluations (fun id => runSingleEval (lst "p") id none
          (if id = lst "t2"
           then { resolution := none, providerOutcome := .ok ⟨some (lst "o")⟩, elapsedMs := 3 }
           else { resolution := some ⟨[(lst "a", lst "1")], some (lst "orig"), lst "trace:metadata"⟩,
                  providerOutcome := .ok ⟨some (lst "o")⟩, elapsedMs := 3 })) 2
          [lst "t1", lst "t2", lst "t3"])).totalTraces :=
  ⟨by decide, by decide, eval_run_counts _ 2 (by decide) _⟩

/-! ## Claim C5 -/

/-- C5: with a concurrency limit of at least 1 the batch loop terminates
and partitions the trace ids into `⌈n / limit⌉` batches: the batches
concatenate back to the input list (so each batch is a contiguous slice
in input order), every batch is nonempty with at most `limit` elements,
the number of batches is `(n + limit - 1) / limit`, and the evaluation
results are exactly the batches' results concatenated in batch order
(batch `k+1`'s results follow after all of batch `k`'s). -/
theorem run_evaluations_batched (evalOne : α → β) (c : Nat) (hc : 1 ≤ c)
    (traceIds : List α) :
    (evalBatches c traceIds).flatten = traceIds ∧
    (∀ b ∈ evalBatches c traceIds, b ≠ [] ∧ b.length ≤ c) ∧
    (evalBatches c traceIds).length = (traceIds.length + c - 1) / c ∧
    runEvaluations evalOne c traceIds
      = ((evalBatches c traceIds).map (fun b => b.map evalOne)).flatten :=
  ⟨evalBatchesFuel_flatten c hc _ _ (Nat.le_refl _),
   fun b hb => evalBatchesFuel_sizes c hc _ _ b hb,
   evalBatchesFuel_length c hc _ _ (Nat.le_refl _),
   runEvaluationsFuel_eq_flatten evalOne c _ _⟩

/-- Witness for C5: 23 trace ids with the default limit 10 yield exactly
3 batches, which concatenate back to the input list. -/
theorem run_evaluations_batched_witness :
    (evalBatches defaultConcurrency (List.range 23)).length = 3 ∧
    (evalBatches defaultConcurrency (List.range 23)).flatten = List.range 23 :=
  ⟨((run_evaluations_batched (fun n : Nat => n) defaultConcurrency (by decide)
      (List.range 23)).2.2.1).trans (by decide),
   (run_evaluations_batched (fun n : Nat => n) defaultConcurrency (by decide)
      (List.range 23)).1⟩

/-! ## Claim C6 -/

/-- C6 counterexample: the claim says every per-trace failure carries the
latency measured up to the point of failure, but the
resolution-not-found branch of `runSingleEval` returns a failed result
with no `latencyMs` at all. -/
theorem runSingleEval_notfound_counterexample :
    (runSingleEval (lst "prompt") (lst "trace-1") none
      { resolution := none, providerOutcome := .ok ⟨some (lst "o")⟩,
        elapsedMs := 5 }).success = false ∧
    (runSingleEval (lst "prompt") (lst "trace-1") none
      { resolution := none, providerOutcome := .ok ⟨some (lst "o")⟩,
        elapsedMs := 5 }).latencyMs = none := by decide

/-- C6 (amended): a resolution failure produces a failed result carrying
the not-found error message but no latency; an exception thrown after
resolution (e.g. by the provider call) produces a failed result carrying
the thrown message and the elapsed latency; and per-trace evaluation is
isolated — each trace's result is a function of that trace's own
environment alone, so one trace's failure never affects the other
traces' results. -/
theorem per_trace_failures_isolated :
    (∀ d t po env, env.resolution = none →
      (runSingleEval d t po env).success = false ∧
      (runSingleEval d t po env).error = some noPromptVariablesMsg ∧
      (runSingleEval d t po env).latencyMs = none) ∧
    (∀ d t po env td e, env.resolution = some td →
      env.providerOutcome = Except.error e →
      (runSingleEval d t po env).success = false ∧
      (runSingleEval d t po env).error = some e ∧
      (runSingleEval d t po env).latencyMs = some env.elapsedMs) ∧
    (∀ d (po : List Char → Option (List Char)) (envOf : List Char → SingleEvalEnv)
        (c : Nat), 1 ≤ c → ∀ traceIds,
      runEvaluations (fun id => runSingleEval d id (po id) (envOf id)) c traceIds
        = traceIds.map (fun id => runSingleEval d id (po id) (envOf id))) := by
  refine ⟨?_, ?_, ?_⟩
  · intro d t po env h
    rw [runSingleEval, h]
    exact ⟨rfl, rfl, rfl⟩
  · intro d t po env td e h1 h2
    rw [runSingleEval, h1, h2]
    exact ⟨rfl, rfl, rfl⟩
  · intro d po envOf c hc traceIds
    exact runEvaluations_eq_map _ c hc traceIds

/-- Witness for C6: the three parts at concrete inputs — a not-found
failure without latency, a thrown provider error with latency 9, and a
two-trace run (one failing, one succeeding) equal to its per-trace map. -/
theorem per_trace_failures_isolated_witness :
    (runSingleEval (lst "p") (lst "tA") none
      { resolution := none, providerOutcome := .ok ⟨none⟩, elapsedMs := 4 }).latencyMs
      = none ∧
    (runSingleEval (lst "p") (lst "tB") none
      { resolution := some ⟨[(lst "k", lst "v")], none, lst "trace:input"⟩,
        providerOutcome := .error (lst "boom"), elapsedMs := 9 }).latencyMs
      = some 9 ∧
    runEvaluations (fun id => runSingleEval (lst "p") id none
        (if id = lst "tA"
         then { resolution := none, providerOutcome := .ok ⟨none⟩, elapsedMs := 4 }
         else { resolution := some ⟨[(lst "k", lst "v")], none, lst "trace:input"⟩,
                providerOutcome := .ok ⟨some (lst "out")⟩, elapsedMs := 2 })) 1
        [lst "tA", lst "tB"]
      = [lst "tA", lst "tB"].map (fun id => runSingleEval (lst "p") id none
        (if id = lst "tA"
         then { resolution := none, providerOutcome := .ok ⟨none⟩, elapsedMs := 4 }
         else { resolution := some ⟨[(lst "k", lst "v")], none, lst "trace:input"⟩,
                providerOutcome := .ok ⟨some (lst "out")⟩, elapsedMs := 2 })) :=
  ⟨(per_trace_failures_isolated.1 (lst "p") (lst "tA") none _ rfl).2.2,
   (per_trace_failures_isolated.2.1 (lst "p") (lst "tB") none _ _ (lst "boom") rfl rfl).2.2,
   per_trace_failures_isolated.2.2 (lst "p") _ _ 1 (by decide) _⟩

/-! ## Claim C10 -/

/-- C10: the aggregated results list preserves input order and
multiplicity — mapping each result to its trace id recovers exactly the
input trace id list (one result per input element, the i-th result
carrying the i-th trace id, duplicates included). -/
theorem results_preserve_trace_ids (d : List Char)
    (po : List Char → Option (List Char)) (envOf : List Char → SingleEvalEnv)
    (c : Nat) (hc : 1 ≤ c) (traceIds : List (List Char)) :
    ((mkEvalRunResult traceIds
        (runEvaluations (fun id => runSingleEval d id (po id) (envOf id)) c
          traceIds)).results).map (fun r => r.traceId) = traceIds := by
  simp only [mkEvalRunResult]
  rw [runEvaluations_eq_map _ _ hc, List.map_map]
  simp only [Function.comp_def, runSingleEval_traceId, List.map_id_fun]
  exact List.map_id traceIds

/-- Witness for C10: a run over the list `["a", "b", "a"]` (with a
duplicated trace id) yields results whose trace ids are exactly
`["a", "b", "a"]`. -/
theorem results_preserve_trace_ids_witness :
    ((mkEvalRunResult [lst "a", lst "b", lst "a"]
        (runEvaluations (fun id => runSingleEval (lst "d") id none
          { resolution := none, providerOutcome := .ok ⟨none⟩, elapsedMs := 0 }) 2
          [lst "a", lst "b", lst "a"])).results).map (fun r => r.traceId)
      = [lst "a", lst "b", lst "a"] :=
  results_preserve_trace_ids (lst "d") (fun _ => none)
    (fun _ => { resolution := none, providerOutcome := .ok ⟨none⟩, elapsedMs := 0 })
    2 (by decide) [lst "a", lst "b", lst "a"]

/-! ## Lemmas about the template engine -/

theorem span_word (w t : List Char) (hw : ∀ c ∈ w, isWordChar c = true) :
    (w ++ '}' :: t).takeWhile isWordChar = w
      ∧ (w ++ '}' :: t).dropWhile isWordChar = '}' :: t := by
  have h0 : isWordChar '}' = false := by decide
  induction w with
  | nil => simp [List.takeWhile_cons, List.dropWhile_cons, h0]
  | cons a as ih =>
    have ha : isWordChar a = true := hw a (by simp)
    have has : ∀ c ∈ as, isWordChar c = true := fun c hc => hw c (by simp [hc])
    obtain ⟨ih1, ih2⟩ := ih has
    simp [List.takeWhile_cons, List.dropWhile_cons, ha, ih1, ih2]

theorem wordThenClose_intro (w t : List Char) (hw : ∀ c ∈ w, isWordChar c = true)
    (hne : w ≠ []) : wordThenClose (w ++ '}' :: t) = true := by
  obtain ⟨h1, h2⟩ := span_word w t hw
  rw [wordThenClose, h1, h2]
  simp [hne]

theorem wordThenClose_mem {s : List Char} (h : wordThenClose s = true) : '}' ∈ s := by
  rw [wordThenClose, Bool.and_eq_true] at h
  have h2 : (s.dropWhile isWordChar).head? = some '}' := of_decide_eq_true h.2
  have hmem : '}' ∈ s.dropWhile isWordChar := by
    cases hdw : s.dropWhile isWordChar with
    | nil => rw [hdw] at h2; simp at h2
    | cons d ds =>
      rw [hdw] at h2
      simp only [List.head?_cons, Option.some.injEq] at h2
      rw [← h2]
      exact List.mem_cons_self _ _
  exact ((List.dropWhile_suffix _).sublist).subset hmem

theorem isWordChar_ne_open {c : Char} (h : isWordChar c = true) : c ≠ '{' := by
  intro e
  rw [e] at h
  exact absurd h (by decide)

theorem placeholderAt_intro (w t : List Char) (hw : ∀ c ∈ w, isWordChar c = true)
    (hne : w ≠ []) : placeholderAt ('{' :: (w ++ '}' :: t)) = true := by
  cases w with
  | nil => exact absurd rfl hne
  | cons a as =>
    have ha : isWordChar a = true := hw a (by simp)
    have hane : a ≠ '{' := isWordChar_ne_open ha
    rw [placeholderAt, if_pos rfl]
    have hh : ((a :: as) ++ '}' :: t).head? = some a := rfl
    rw [hh, if_neg (by simpa using hane)]
    exact wordThenClose_intro (a :: as) t hw hne

theorem matchSingle_inv {s r : List Char} (h : matchSingle s = some r) :
    ∃ w, s = '{' :: (w ++ '}' :: r) ∧ w ≠ [] ∧ ∀ c ∈ w, isWordChar c = true := by
  cases s with
  | nil => simp [matchSingle] at h
  | cons c rest =>
    rw [matchSingle] at h
    by_cases hc : c = '{'
    · rw [if_pos hc] at h
      by_cases hw : (rest.takeWhile isWordChar).isEmpty
      · rw [if_pos hw] at h; cases h
      · rw [if_neg hw] at h
        by_cases hh : (rest.dropWhile isWordChar).head? = some '}'
        · rw [if_pos hh] at h
          obtain rfl : (rest.dropWhile isWordChar).tail = r := Option.some.inj h
          subst hc
          refine ⟨rest.takeWhile isWordChar, ?_, ?_, fun x hx => List.mem_takeWhile_imp hx⟩
          · obtain ⟨d, ds, hds⟩ : ∃ d ds, rest.dropWhile isWordChar = d :: ds := by
              cases hdw : rest.dropWhile isWordChar with
              | nil => rw [hdw] at hh; simp at hh
              | cons d ds => exact ⟨d, ds, rfl⟩
            have hd : d = '}' := by
              rw [hds] at hh; simpa using hh
            have hsplit := List.takeWhile_append_dropWhile (p := isWordChar) (l := rest)
            rw [hds, hd] at hsplit
            rw [hds]
            simp only [List.tail_cons]
            rw [hsplit]
          · intro e
            rw [e] at hw
            exact hw rfl
        · rw [if_neg hh] at h; cases h
    · rw [if_neg hc] at h; cases h

theorem matchDouble_inv {s r : List Char} (h : matchDouble s = some r) :
    ∃ w, s = '{' :: '{' :: (w ++ '}' :: '}' :: r) ∧ w ≠ []
      ∧ ∀ c ∈ w, isWordChar c = true := by
  cases s with
  | nil => simp [matchDouble] at h
  | cons c s1 =>
    cases s1 with
    | nil => simp [matchDouble] at h
    | cons c2 rest =>
      rw [matchDouble] at h
      by_cases hc : c = '{' ∧ c2 = '{'
      · rw [if_pos hc] at h
        by_cases hw : (rest.takeWhile isWordChar).isEmpty
        · rw [if_pos hw] at h; cases h
        · rw [if_neg hw] at h
          by_cases hh : (rest.dropWhile isWordChar).head? = some '}'
              ∧ (rest.dropWhile isWordChar).tail.head? = some '}'
          · rw [if_pos hh] at h
            obtain rfl : (rest.dropWhile isWordChar).tail.tail = r := Option.some.inj h
            obtain ⟨hc1, hc2⟩ := hc
            subst hc1; subst hc2
            refine ⟨rest.takeWhile isWordChar, ?_, ?_, fun x hx => List.mem_takeWhile_imp hx⟩
            · obtain ⟨d, ds, hds⟩ : ∃ d ds, rest.dropWhile isWordChar = d :: ds := by
                cases hdw : rest.dropWhile isWordChar with
                | nil => rw [hdw] at hh; simp at hh
                | cons d ds => exact ⟨d, ds, rfl⟩
              obtain ⟨e, es, hes⟩ : ∃ e es, ds = e :: es := by
                cases hds2 : ds with
                | nil => rw [hds, hds2] at hh; simp at hh
                | cons e es => exact ⟨e, es, rfl⟩
              have hd : d = '}' := by
                rw [hds] at hh; simpa using hh.1
              have he : e = '}' := by
                rw [hds, hes] at hh; simpa using hh.2
              have hsplit := List.takeWhile_append_dropWhile (p := isWordChar) (l := rest)
              rw [hds, hes, hd, he] at hsplit
              rw [hds, hes]
              simp only [List.tail_cons]
              rw [hsplit]
            · intro e2
              rw [e2] at hw
              exact hw rfl
          · rw [if_neg hh] at h; cases h
      · rw [if_neg hc] at h; cases h

theorem matchSingle_placeholderAt {s r : List Char} (h : matchSingle s = some r) :
    placeholderAt s = true := by
  obtain ⟨w, rfl, hne, hw⟩ := matchSingle_inv h
  exact placeholderAt_intro w r hw hne

theorem matchDouble_placeholderAt {s r : List Char} (h : matchDouble s = some r) :
    placeholderAt s = true := by
  obtain ⟨w, rfl, hne, hw⟩ := matchDouble_inv h
  rw [placeholderAt, if_pos rfl]
  have hh : ('{' :: (w ++ '}' :: '}' :: r)).head? = some '{' := rfl
  rw [hh, if_pos rfl]
  simp only [List.tail_cons]
  exact wordThenClose_intro w ('}' :: r) hw hne

theorem any_false_sublist {l1 l2 : List Char} (p : Char → Bool)
    (hs : List.Sublist l1 l2) (h : l2.any p = false) : l1.any p = false := by
  cases hany : l1.any p with
  | false => rfl
  | true =>
    rw [List.any_eq_true] at hany
    obtain ⟨x, hx, hpx⟩ := hany
    have : l2.any p = true := List.any_eq_true.mpr ⟨x, hs.subset hx, hpx⟩
    rw [this] at h
    cases h

theorem bracesOk_suffix {s1 s2 : List Char} (hs : s1 <:+ s2)
    (h : bracesOk s2 = true) : bracesOk s1 = true := by
  induction s2 with
  | nil =>
    rw [List.suffix_nil] at hs
    rw [hs]
    rfl
  | cons c cs ih =>
    rcases List.suffix_cons_iff.mp hs with h1 | h1
    · rw [h1]; exact h
    · rw [bracesOk, Bool.and_eq_true] at h
      exact ih h1 h.2

theorem matchSingle_suffix_tail {c : Char} {cs r : List Char}
    (h : matchSingle (c :: cs) = some r) : r <:+ cs := by
  obtain ⟨w, heq, -, -⟩ := matchSingle_inv h
  have : cs = w ++ '}' :: r := by
    have := congrArg List.tail heq
    simpa using this
  exact ⟨w ++ ['}'], by simp [this]⟩

theorem matchDouble_suffix_tail {c : Char} {cs r : List Char}
    (h : matchDouble (c :: cs) = some r) : r <:+ cs := by
  obtain ⟨w, heq, -, -⟩ := matchDouble_inv h
  have : cs = '{' :: (w ++ '}' :: '}' :: r) := by
    have := congrArg List.tail heq
    simpa using this
  exact ⟨'{' :: (w ++ ['}', '}']), by simp [this]⟩

theorem removeSinglesFuel_sublist (fuel : Nat) (s : List Char) :
    List.Sublist (removeSinglesFuel fuel s) s := by
  induction fuel generalizing s with
  | zero => exact List.Sublist.refl s
  | succ fuel ih =>
    cases s with
    | nil => exact List.Sublist.refl []
    | cons c cs =>
      rw [removeSinglesFuel]
      cases hm : matchSingle (c :: cs) with
      | some r =>
        have hr : List.Sublist r cs := (matchSingle_suffix_tail hm).sublist
        exact ((ih r).trans hr).trans (List.sublist_cons_self c cs)
      | none => exact (ih cs).cons₂ c

theorem removeDoublesFuel_sublist (fuel : Nat) (s : List Char) :
    List.Sublist (removeDoublesFuel fuel s) s := by
  induction fuel generalizing s with
  | zero => exact List.Sublist.refl s
  | succ fuel ih =>
    cases s with
    | nil => exact List.Sublist.refl []
    | cons c cs =>
      rw [removeDoublesFuel]
      cases hm : matchDouble (c :: cs) with
      | some r =>
        have hr : List.Sublist r cs := (matchDouble_suffix_tail hm).sublist
        exact ((ih r).trans hr).trans (List.sublist_cons_self c cs)
      | none => exact (ih cs).cons₂ c

theorem bracesOk_removeSingles (fuel : Nat) (s : List Char) (hf : s.length ≤ fuel)
    (h : bracesOk s = true) : noCloseAfterOpen (removeSinglesFuel fuel s) = true := by
  induction fuel generalizing s with
  | zero =>
    have : s = [] := by
      cases s with
      | nil => rfl
      | cons c cs => simp at hf
    rw [this]
    rfl
  | succ fuel ih =>
    cases s with
    | nil => rfl
    | cons c cs =>
      rw [bracesOk, Bool.and_eq_true] at h
      have hcs : bracesOk cs = true := h.2
      rw [removeSinglesFuel]
      cases hm : matchSingle (c :: cs) with
      | some r =>
        have hsuf : r <:+ cs := matchSingle_suffix_tail hm
        have hr : bracesOk r = true := bracesOk_suffix (hsuf.trans (List.suffix_cons c cs)) (by rw [bracesOk, Bool.and_eq_true]; exact h)
        have hlen : r.length ≤ fuel := by
          have := hsuf.length_le
          simp only [List.length_cons] at hf
          omega
        exact ih r hlen hr
      | none =>
        by_cases hc : c = '{'
        · subst hc
          have hno : cs.any (· == '}') = false := by
            have h1 := h.1
            rw [if_pos rfl, hm] at h1
            simpa using h1
          rw [noCloseAfterOpen, Bool.and_eq_true]
          constructor
          · rw [if_pos rfl]
            rw [any_false_sublist _ (removeSinglesFuel_sublist fuel cs) hno]
            rfl
          · exact ih cs (by simp only [List.length_cons] at hf; omega) hcs
        · rw [noCloseAfterOpen, Bool.and_eq_true]
          constructor
          · rw [if_neg hc]
          · exact ih cs (by simp only [List.length_cons] at hf; omega) hcs

theorem placeholderAt_mem {c : Char} {rest : List Char}
    (h : placeholderAt (c :: rest) = true) : '}' ∈ rest := by
  rw [placeholderAt] at h
  by_cases hc : c = '{'
  · rw [if_pos hc] at h
    by_cases hh : rest.head? = some '{'
    · rw [if_pos hh] at h
      exact (List.tail_sublist rest).subset (wordThenClose_mem h)
    · rw [if_neg hh] at h
      exact wordThenClose_mem h
  · rw [if_neg hc] at h
    cases h

theorem noCloseAfterOpen_no_placeholder {s : List Char}
    (h : noCloseAfterOpen s = true) : containsPlaceholder s = false := by
  induction s with
  | nil => rfl
  | cons c cs ih =>
    rw [noCloseAfterOpen, Bool.and_eq_true] at h
    have hpa : placeholderAt (c :: cs) = false := by
      cases hpa : placeholderAt (c :: cs) with
      | false => rfl
      | true =>
        have hmem := placeholderAt_mem hpa
        have hc : c = '{' := by
          rw [placeholderAt] at hpa
          by_cases hc : c = '{'
          · exact hc
          · rw [if_neg hc] at hpa; cases hpa
        have h1 := h.1
        rw [if_pos hc] at h1
        have : cs.any (· == '}') = true := List.any_eq_true.mpr ⟨'}', hmem, by simp⟩
        rw [this] at h1
        cases h1
    rw [containsPlaceholder, hpa, ih h.2]
    rfl

theorem isPrefixOf_exists {p s : List Char} (h : p.isPrefixOf s = true) :
    ∃ t, s = p ++ t := by
  induction p generalizing s with
  | nil => exact ⟨s, rfl⟩
  | cons a as ih =>
    cases s with
    | nil => simp [List.isPrefixOf] at h
    | cons b bs =>
      rw [List.isPrefixOf, Bool.and_eq_true] at h
      obtain ⟨t, ht⟩ := ih h.2
      exact ⟨t, by rw [List.cons_append, ← ht, eq_of_beq h.1]⟩

theorem isPrefixOf_append_left {p q s : List Char}
    (h : (p ++ q).isPrefixOf s = true) : p.isPrefixOf s = true := by
  induction p generalizing s with
  | nil => cases s <;> rfl
  | cons a as ih =>
    cases s with
    | nil => simp [List.isPrefixOf] at h
    | cons b bs =>
      rw [List.cons_append, List.isPrefixOf, Bool.and_eq_true] at h
      rw [List.isPrefixOf, Bool.and_eq_true]
      exact ⟨h.1, ih h.2⟩

theorem isPrefixOf_occursIn {p s : List Char} (h : p.isPrefixOf s = true) :
    occursIn p s = true := by
  cases s with
  | nil =>
    cases p with
    | nil => rfl
    | cons a as => simp [List.isPrefixOf] at h
  | cons b bs =>
    rw [occursIn, Bool.or_eq_true]
    exact Or.inl h

theorem occursIn_tail_pat {c : Char} {p s : List Char}
    (h : occursIn (c :: p) s = true) : occursIn p s = true := by
  induction s with
  | nil => simp [occursIn] at h
  | cons b bs ih =>
    rw [occursIn, Bool.or_eq_true] at h
    rw [occursIn, Bool.or_eq_true]
    rcases h with h | h
    · rw [List.isPrefixOf, Bool.and_eq_true] at h
      exact Or.inr (isPrefixOf_occursIn h.2)
    · exact Or.inr (ih h)

theorem occursIn_append_left {p q s : List Char}
    (h : occursIn (p ++ q) s = true) : occursIn p s = true := by
  induction s with
  | nil =>
    rw [occursIn] at h ⊢
    rw [List.isEmpty_iff] at h ⊢
    rcases List.append_eq_nil.mp h with ⟨h1, _⟩
    exact h1
  | cons b bs ih =>
    rw [occursIn, Bool.or_eq_true] at h ⊢
    rcases h with h | h
    · exact Or.inl (isPrefixOf_append_left h)
    · exact Or.inr (ih h)

theorem occursIn_single_placeholder {w s : List Char}
    (hw : ∀ c ∈ w, isWordChar c = true) (hne : w ≠ [])
    (h : occursIn ('{' :: (w ++ ['}'])) s = true) : containsPlaceholder s = true := by
  induction s with
  | nil => simp [occursIn] at h
  | cons b bs ih =>
    rw [occursIn, Bool.or_eq_true] at h
    rcases h with h | h
    · obtain ⟨t, ht⟩ := isPrefixOf_exists h
      rw [containsPlaceholder, Bool.or_eq_true]
      left
      rw [ht]
      have : ('{' :: (w ++ ['}'])) ++ t = '{' :: (w ++ '}' :: t) := by simp
      rw [this]
      exact placeholderAt_intro w t hw hne
    · rw [containsPlaceholder, Bool.or_eq_true]
      exact Or.inr (ih h)

theorem occursIn_double_placeholder {w s : List Char}
    (hw : ∀ c ∈ w, isWordChar c = true) (hne : w ≠ [])
    (h : occursIn ('{' :: '{' :: (w ++ ['}', '}'])) s = true) :
    containsPlaceholder s = true := by
  have hshape : '{' :: '{' :: (w ++ ['}', '}'])
      = '{' :: (('{' :: (w ++ ['}'])) ++ ['}']) := by simp
  rw [hshape] at h
  exact occursIn_single_placeholder hw hne
    (occursIn_append_left (occursIn_tail_pat h))

theorem replaceAllFuel_no_occur {pat s : List Char} (repl : List Char)
    (h : occursIn pat s = false) :
    ∀ fuel before, replaceAllFuel pat repl fuel before s = s := by
  induction s with
  | nil => intro fuel before; cases fuel <;> rfl
  | cons c cs ih =>
    intro fuel before
    rw [occursIn] at h
    have h1 : pat.isPrefixOf (c :: cs) = false := by
      cases hp : pat.isPrefixOf (c :: cs) with
      | false => rfl
      | true => rw [hp] at h; simp at h
    have h2 : occursIn pat cs = false := by
      cases ho : occursIn pat cs with
      | false => rfl
      | true => rw [ho] at h; simp at h
    cases fuel with
    | zero => rfl
    | succ fuel =>
      rw [replaceAllFuel, h1]
      simp only [Bool.and_false, Bool.false_eq_true, if_false]
      rw [ih h2]

theorem replaceAll_no_occur {pat s : List Char} (repl : List Char)
    (h : occursIn pat s = false) : replaceAll s pat repl = s :=
  replaceAllFuel_no_occur repl h s.length []

theorem not_occursIn_single {s k : List Char} (hs : containsPlaceholder s = false)
    (hk : k ≠ []) (hw : ∀ c ∈ k, isWordChar c = true) :
    occursIn ('{' :: (k ++ ['}'])) s = false := by
  cases ho : occursIn ('{' :: (k ++ ['}'])) s with
  | false => rfl
  | true => rw [occursIn_single_placeholder hw hk ho] at hs; cases hs

theorem not_occursIn_double {s k : List Char} (hs : containsPlaceholder s = false)
    (hk : k ≠ []) (hw : ∀ c ∈ k, isWordChar c = true) :
    occursIn ('{' :: '{' :: (k ++ ['}', '}'])) s = false := by
  cases ho : occursIn ('{' :: '{' :: (k ++ ['}', '}'])) s with
  | false => rfl
  | true => rw [occursIn_double_placeholder hw hk ho] at hs; cases hs

theorem fillOneSpelling_id {s k v : List Char} (hs : containsPlaceholder s = false)
    (hk : k ≠ []) (hw : ∀ c ∈ k, isWordChar c = true) :
    fillOneSpelling s k v = s := by
  rw [fillOneSpelling, replaceAll_no_occur v (not_occursIn_double hs hk hw),
    replaceAll_no_occur v (not_occursIn_single hs hk hw)]

theorem swap_word {k : List Char} (a b : Char) (hb : isWordChar b = true)
    (hw : ∀ c ∈ k, isWordChar c = true) :
    ∀ c ∈ k.map (fun c => if c = a then b else c), isWordChar c = true := by
  intro c hc
  rw [List.mem_map] at hc
  obtain ⟨d, hd, hdc⟩ := hc
  by_cases hda : d = a
  · rw [← hdc, if_pos hda]; exact hb
  · rw [← hdc, if_neg hda]; exact hw d hd

theorem fillKey_id {s k v : List Char} (hs : containsPlaceholder s = false)
    (hk : k ≠ []) (hw : ∀ c ∈ k, isWordChar c = true) : fillKey s k v = s := by
  have hhy : ∀ c ∈ k.map (fun c => if c = '_' then '-' else c), isWordChar c = true :=
    swap_word '_' '-' (by decide) hw
  have hun : ∀ c ∈ k.map (fun c => if c = '-' then '_' else c), isWordChar c = true :=
    swap_word '-' '_' (by decide) hw
  have hhyne : k.map (fun c => if c = '_' then '-' else c) ≠ [] := by
    simpa using hk
  have hunne : k.map (fun c => if c = '-' then '_' else c) ≠ [] := by
    simpa using hk
  rw [fillKey]
  simp only [fillOneSpelling_id hs hk hw]
  by_cases h1 : k.map (fun c => if c = '_' then '-' else c) = k
  · rw [if_pos h1]
    by_cases h2 : k.map (fun c => if c = '-' then '_' else c) = k
    · rw [if_pos h2]
    · rw [if_neg h2, fillOneSpelling_id hs hunne hun]
  · rw [if_neg h1]
    rw [fillOneSpelling_id hs hhyne hhy]
    by_cases h2 : k.map (fun c => if c = '-' then '_' else c) = k
    · rw [if_pos h2]
    · rw [if_neg h2, fillOneSpelling_id hs hunne hun]

theorem substituteVars_id {s : List Char} {vars : List (List Char × List Char)}
    (hs : containsPlaceholder s = false)
    (hkeys : ∀ kv ∈ vars, kv.1 ≠ [] ∧ ∀ c ∈ kv.1, isWordChar c = true) :
    substituteVars s vars = s := by
  induction vars with
  | nil => rfl
  | cons kv rest ih =>
    have hkv := hkeys kv (List.mem_cons_self _ _)
    rw [substituteVars, List.foldl_cons, fillKey_id hs hkv.1 hkv.2]
    exact ih (fun kv2 h2 => hkeys kv2 (List.mem_cons_of_mem _ h2))

theorem matchSingle_none {c : Char} {cs : List Char}
    (h : containsPlaceholder (c :: cs) = false) : matchSingle (c :: cs) = none := by
  cases hm : matchSingle (c :: cs) with
  | none => rfl
  | some r =>
    rw [containsPlaceholder, matchSingle_placeholderAt hm] at h
    simp at h

theorem matchDouble_none {c : Char} {cs : List Char}
    (h : containsPlaceholder (c :: cs) = false) : matchDouble (c :: cs) = none := by
  cases hm : matchDouble (c :: cs) with
  | none => rfl
  | some r =>
    rw [containsPlaceholder, matchDouble_placeholderAt hm] at h
    simp at h

theorem containsPlaceholder_tail {c : Char} {cs : List Char}
    (h : containsPlaceholder (c :: cs) = false) : containsPlaceholder cs = false := by
  rw [containsPlaceholder] at h
  cases ho : containsPlaceholder cs with
  | false => rfl
  | true => rw [ho] at h; simp at h

theorem removeSinglesFuel_id {s : List Char} (hs : containsPlaceholder s = false) :
    ∀ fuel, removeSinglesFuel fuel s = s := by
  induction s with
  | nil => intro fuel; cases fuel <;> rfl
  | cons c cs ih =>
    intro fuel
    cases fuel with
    | zero => rfl
    | succ fuel =>
      rw [removeSinglesFuel, matchSingle_none hs, ih (containsPlaceholder_tail hs) fuel]

theorem removeDoublesFuel_id {s : List Char} (hs : containsPlaceholder s = false) :
    ∀ fuel, removeDoublesFuel fuel s = s := by
  induction s with
  | nil => intro fuel; cases fuel <;> rfl
  | cons c cs ih =>
    intro fuel
    cases fuel with
    | zero => rfl
    | succ fuel =>
      rw [removeDoublesFuel, matchDouble_none hs, ih (containsPlaceholder_tail hs) fuel]

/-! ## Claim C1 -/

/-- C1 counterexample: the claim asserts that even placeholders newly
formed by deleting an inner placeholder are removed, but
`fillVariables("{a{b}c}", {})` deletes the inner `{b}` and leaves
`"{ac}"`, which still matches the placeholder pattern. -/
theorem fillVariables_leftover_counterexample :
    fillVariables (lst "{a{b}c}") [] = lst "{ac}" ∧
    containsPlaceholder (fillVariables (lst "{a{b}c}") []) = true := by decide

/-- C1 (amended): the filled output contains no substring matching the
placeholder pattern, provided that in the text after variable
substitution and the double-brace cleanup pass, every opening brace
either begins a `{word}` placeholder or is followed by no closing brace
at all (`bracesOk`); without that proviso, deleting an inner placeholder
can newly form a placeholder-shaped substring that the single left-to-right
cleanup scan does not revisit. -/
theorem fillVariables_no_leftover (template : List Char)
    (vars : List (List Char × List Char))
    (h : bracesOk (removeDoubles (substituteVars template vars)) = true) :
    containsPlaceholder (fillVariables template vars) = false :=
  noCloseAfterOpen_no_placeholder
    (bracesOk_removeSingles _ _ (Nat.le_refl _) h)

/-- Witness for C1: the end-to-end scenario `"Hello {{name}}!"` with
`{name: "Ada"}` satisfies the proviso and yields a placeholder-free
output. -/
theorem fillVariables_no_leftover_witness :
    bracesOk (removeDoubles
      (substituteVars (lst "Hello {{name}}!") [(lst "name", lst "Ada")])) = true ∧
    containsPlaceholder
      (fillVariables (lst "Hello {{name}}!") [(lst "name", lst "Ada")]) = false :=
  ⟨by decide, fillVariables_no_leftover _ _ (by decide)⟩

/-! ## Claim C2 -/

/-- C2 counterexample: filling is not idempotent — the first fill of
`"{x{y}z}"` leaves the newly formed placeholder `"{xz}"`, which a second
fill removes entirely. -/
theorem fillVariables_not_idempotent_counterexample :
    fillVariables (lst "{x{y}z}") [] = lst "{xz}" ∧
    fillVariables (fillVariables (lst "{x{y}z}") []) [] = [] ∧
    fillVariables (fillVariables (lst "{x{y}z}") []) []
      ≠ fillVariables (lst "{x{y}z}") [] := by decide

/-- C2 (amended): filling is idempotent on its own output provided every
variable key is a nonempty string of word characters or hyphens and the
first fill's output contains no placeholder-shaped substring (the general
case fails only when deletion newly forms a placeholder, which the second
fill then removes). -/
theorem fillVariables_idempotent (template : List Char)
    (vars : List (List Char × List Char))
    (hkeys : ∀ kv ∈ vars, kv.1 ≠ [] ∧ ∀ c ∈ kv.1, isWordChar c = true)
    (hclean : containsPlaceholder (fillVariables template vars) = false) :
    fillVariables (fillVariables template vars) vars
      = fillVariables template vars := by
  conv_lhs => rw [fillVariables]
  rw [substituteVars_id hclean hkeys, removeDoubles,
    removeDoublesFuel_id hclean, removeSingles, removeSinglesFuel_id hclean]

/-- Witness for C2: `"Hi {{user-name}}"` with the underscore-spelled key
`user_name` fills to `"Hi Bo"` (exercising the hyphen/underscore swap),
and filling that output again returns it unchanged. -/
theorem fillVariables_idempotent_witness :
    fillVariables (lst "Hi {{user-name}}") [(lst "user_name", lst "Bo")] = lst "Hi Bo" ∧
    fillVariables (fillVariables (lst "Hi {{user-name}}") [(lst "user_name", lst "Bo")])
        [(lst "user_name", lst "Bo")]
      = fillVariables (lst "Hi {{user-name}}") [(lst "user_name", lst "Bo")] :=
  ⟨by decide, fillVariables_idempotent _ _ (by decide) (by decide)⟩

/-! ## Claim C3 -/

/-- C3 counterexample: replacement values are not inserted verbatim and
later keys do re-match text introduced by earlier replacements.  The
value `"$&"` re-inserts the matched pattern (JS replacement-pattern
processing) instead of appearing literally, and with
`{a: "{b}", b: "X"}` the pass for `b` matches the `"{b}"` text that the
pass for `a` just inserted, producing `"X"`. -/
theorem substitution_not_literal_counterexample :
    substituteVars (lst "{a}") [(lst "a", lst "$&")] = lst "{a}" ∧
    fillVariables (lst "{a}") [(lst "a", lst "$&")] = [] ∧
    fillVariables (lst "{a}") [(lst "a", lst "{b}"), (lst "b", lst "X")] = lst "X" := by
  decide

/-- C3 (amended): keys are processed in insertion order by sequential
whole-text passes (substituting a concatenation of mappings equals
substituting the first then the second), and a replacement value is
inserted verbatim exactly when it contains no `$` character — otherwise
JS replacement-pattern sequences are interpreted, and later keys can
re-match text introduced by earlier replacement values (witnessed by the
counterexample). -/
theorem substitution_order_and_literal :
    (∀ (template : List Char) (vars1 vars2 : List (List Char × List Char)),
      substituteVars template (vars1 ++ vars2)
        = substituteVars (substituteVars template vars1) vars2) ∧
    (∀ matched before after v, '$' ∉ v → expandRepl matched before after v = v) := by
  constructor
  · intro template vars1 vars2
    exact List.foldl_append _ _ _ _
  · intro matched before after v hv
    induction v with
    | nil => rfl
    | cons c rest ih =>
      have hc : c ≠ '$' := fun e => hv (e ▸ List.mem_cons_self c rest)
      have hrest : '$' ∉ rest := fun h => hv (List.mem_cons_of_mem c h)
      rw [expandRepl.eq_def]
      simp only [if_neg hc]
      rw [ih hrest]

/-- Witness for C3: a `$`-free replacement value is inserted verbatim by
the replacement-string processing. -/
theorem substitution_order_and_literal_witness :
    '$' ∉ lst "world" ∧
    expandRepl (lst "{x}") (lst "pre") (lst "post") (lst "world") = lst "world" :=
  ⟨by decide, substitution_order_and_literal.2 _ _ _ _ (by decide)⟩

/-! ## Claim C7 -/

/-- C7 counterexample: with an empty logical prompt name (falsy in JS),
`findMatchingObservation` returns the first observation without trying
the exact-name match.  Here the second observation's name exactly equals
the prompt name `""` and the first observation's normalized name contains
the normalized (empty) base name, yet the first is returned. -/
theorem findMatchingObservation_empty_counterexample :
    findMatchingObservation (some (lst ""))
        [⟨some (lst "x"), none, none⟩, ⟨some (lst ""), none, none⟩]
      = some ⟨some (lst "x"), none, none⟩ ∧
    (⟨some (lst ""), none, none⟩ : Observation).name = some (lst "") ∧
    (⟨some (lst "x"), none, none⟩ : Observation).name ≠ some (lst "") ∧
    occursIn (normalizeNameL (lastSegment (lst ""))) (normalizeNameL (lst "x")) = true := by
  decide

/-- C7 (amended): for every nonempty logical prompt name, whenever some
observation's name exactly equals the prompt name, `findMatchingObservation`
returns an exact-name match, regardless of the observations' order and of
any normalized-substring matches also present (the exact-name scan runs
first over the whole list). -/
theorem findMatchingObservation_exact_priority (pn : List Char) (obss : List Observation)
    (hpn : pn ≠ []) (hex : ∃ o ∈ obss, o.name = some pn) :
    ∃ m, findMatchingObservation (some pn) obss = some m ∧ m.name = some pn := by
  obtain ⟨o, ho, hname⟩ := hex
  have hobss : obss ≠ [] := by
    intro e
    rw [e] at ho
    cases ho
  have hpe : pn.isEmpty = false := by
    cases hpe : pn.isEmpty with
    | false => rfl
    | true => exact absurd (List.isEmpty_iff.mp hpe) hpn
  have hoe : obss.isEmpty = false := by
    cases hoe : obss.isEmpty with
    | false => rfl
    | true => exact absurd (List.isEmpty_iff.mp hoe) hobss
  rw [findMatchingObservation]
  rw [if_neg (by rw [hpe, hoe]; simp)]
  cases hf : obss.find? (fun o => o.name = some pn) with
  | some m =>
    refine ⟨m, rfl, ?_⟩
    have hp := List.find?_some hf
    simp only [decide_eq_true_eq] at hp
    exact hp
  | none =>
    have := List.find?_eq_none.mp hf o ho
    rw [hname] at this
    simp at this

/-- Witness for C7: an exact-name observation listed after a
normalized-substring match is still the one returned. -/
theorem findMatchingObservation_exact_priority_witness :
    (∃ m, findMatchingObservation (some (lst "intake-acceptance-criteria"))
        [⟨some (lst "generateIntakeAcceptanceCriteria"), none, none⟩,
         ⟨some (lst "intake-acceptance-criteria"), none, none⟩] = some m ∧
      m.name = some (lst "intake-acceptance-criteria")) ∧
    occursIn (normalizeNameL (lastSegment (lst "intake-acceptance-criteria")))
      (normalizeNameL (lst "generateIntakeAcceptanceCriteria")) = true :=
  ⟨findMatchingObservation_exact_priority _ _ (by decide)
    ⟨⟨some (lst "intake-acceptance-criteria"), none, none⟩, by decide, rfl⟩,
   by decide⟩

/-! ## Claim C8 -/

/-- C8 counterexample: a template whose only role marker is the
lower-case `[system]` is not recognized as marker-blocks (the presence
check uses case-sensitive `includes`), while the upper-case spelling is. -/
theorem parseTextMarkerFormat_lowercase_counterexample :
    parseTextMarkerFormat (lst "[system]\nhello") = none ∧
    parseTextMarkerFormat (lst "[SYSTEM]\nhello")
      = some [⟨Role.system, lst "hello"⟩] := by decide

/-- C8 (amended): marker detection is case-sensitive — a template
containing none of the exact upper-case markers `[SYSTEM]`, `[USER]`,
`[ASSISTANT]` is never recognized (returns null); once detection
succeeds, the split and the role assignment are case-insensitive, so
markers in any casing delimit segments and each non-empty intervening
segment is assigned to the most recently seen marker's role (second
conjunct: an upper-case `[SYSTEM]` triggers detection and the lower-case
`[user]` is still split on and assigned the user role). -/
theorem parseTextMarkerFormat_detection :
    (∀ text, hasMarkers text = false → parseTextMarkerFormat text = none) ∧
    parseTextMarkerFormat (lst "[SYSTEM]\nsys rules\n[user]\nhello\n[ASSISTANT]\nok")
      = some [⟨Role.system, lst "sys rules"⟩, ⟨Role.user, lst "hello"⟩,
          ⟨Role.assistant, lst "ok"⟩] := by
  constructor
  · intro text h
    rw [parseTextMarkerFormat, h]
    rfl
  · decide

/-- Witness for C8: a template with only lower-case markers has no
(case-sensitive) marker occurrence and is rejected. -/
theorem parseTextMarkerFormat_detection_witness :
    hasMarkers (lst "[user]\nall lower case") = false ∧
    parseTextMarkerFormat (lst "[user]\nall lower case") = none :=
  ⟨by decide, parseTextMarkerFormat_detection.1 _ (by decide)⟩

/-! ## Claim C9 -/

/-- C9 counterexample: a number literal translates to a bare `NUMBER`
schema with no enum at all, not an enum-of-one. -/
theorem zod_literal_number_counterexample :
    (zodToGeminiSchema (ZodType.zliteral (JsLit.num 5))).gtype = GType.NUMBER ∧
    (zodToGeminiSchema (ZodType.zliteral (JsLit.num 5))).enumVals = none := by
  constructor <;>
    simp [zodToGeminiSchema, convertZodType, gbase, GeminiSchema.gtype, GeminiSchema.enumVals]

/-- C9 (amended): only a string literal translates to an enum-of-one
(type `STRING` with `enum` containing exactly the literal value); number
and boolean literals translate to bare `NUMBER`/`BOOLEAN` schemas with no
enum list. -/
theorem zod_literal_translation :
    (∀ s, zodToGeminiSchema (ZodType.zliteral (JsLit.str s))
        = GeminiSchema.mk GType.STRING (some [s]) none none none none none) ∧
    (∀ n, zodToGeminiSchema (ZodType.zliteral (JsLit.num n)) = gbase GType.NUMBER) ∧
    (∀ b, zodToGeminiSchema (ZodType.zliteral (JsLit.bool b)) = gbase GType.BOOLEAN) := by
  refine ⟨fun s => ?_, fun n => ?_, fun b => ?_⟩ <;>
    simp [zodToGeminiSchema, convertZodType]
